import Mathlib

/-!
Shallow embedding of the yosys pass `extract_io_flows`
(src/passes/proganalysis/extract_io_flows.cc) and proofs about it.

The pass builds, per module, a predecessor map over single signal bits
(from wire-to-wire connections and from primitive gate instances), then
computes for every output-port bit the memoized transitive closure of
predecessors down to primary-input bits and emits a JSON report.
-/

set_option maxHeartbeats 1000000

/-- Constant signal states of RTLIL (`RTLIL::State`): 0, 1, x, z (and the
marker states are irrelevant to this pass, one constructor each suffices). -/
inductive BitState where
  | S0 | S1 | Sx | Sz
deriving DecidableEq, Repr

/-- Model of `RTLIL::Wire`: the fields the pass reads (name, width, port
direction flags). -/
structure Wire where
  name : String
  width : Nat
  port_input : Bool
  port_output : Bool
deriving DecidableEq, Repr

/-- Model of `RTLIL::SigBit`: either a bit offset of a wire or a constant
state. Equality is by (wire, offset) resp. by constant value. -/
inductive SigBit where
  | wire (w : Wire) (offset : Nat)
  | const (s : BitState)
deriving DecidableEq, Repr

/-- `RTLIL::SigBit::is_wire()` : true iff the bit denotes a wire bit. -/
def SigBit.is_wire : SigBit → Bool
  | .wire _ _ => true
  | .const _ => false

/-- Model of `RTLIL::Cell`: type name and the pin connections; each pin maps
to the list of signal bits of its `SigSpec`. -/
structure Cell where
  type : String
  conns : List (String × List SigBit)
deriving DecidableEq, Repr

/-- Model of `RTLIL::Module` as the pass consumes it: name, the port wires in
declaration order, the connection list (destination, source) with each side a
bit vector, and the cell list. -/
structure RtlModule where
  name : String
  ports : List Wire
  conns : List (List SigBit × List SigBit)
  cells : List Cell

/-- The worker's `sig_inputs` map (`dict<SigBit, std::set<SigBit>>`), modelled
as a total function defaulting to the empty predecessor list (matching
`operator[]` default construction). -/
abbrev PredMap := SigBit → List SigBit

/-- Set insertion into a predecessor list (`std::set::insert`): no duplicates. -/
def insertPred (src : SigBit) (l : List SigBit) : List SigBit :=
  if src ∈ l then l else l ++ [src]

/-- `ExtractIOFlowsWorker::add_sigbit_connection`: record `src` as a
predecessor of `dest`. -/
def add_sigbit_connection (src dest : SigBit) (pm : PredMap) : PredMap :=
  fun b => if b = dest then insertPred src (pm dest) else pm b

/-- The worker's memoization cache `sig_deps`, an association list. -/
abbrev Cache := List (SigBit × Finset SigBit)

/-- Cache lookup (`sig_deps.count` / `sig_deps.at`). -/
def lookupCache (cache : Cache) (b : SigBit) : Option (Finset SigBit) :=
  match cache with
  | [] => none
  | (b', d) :: rest => if b = b' then some d else lookupCache rest b

/-- One pass over a predecessor list inside `get_dependencies`: query each
predecessor with the supplied recursive call (threading the cache) and union
the results, as the `for (auto pred : sig_inputs[sig])` loop does. -/
def getDepsStep (rec : Cache → SigBit → Option (Cache × Finset SigBit)) :
    Cache → List SigBit → Option (Cache × Finset SigBit)
  | cache, [] => some (cache, ∅)
  | cache, p :: ps =>
    match rec cache p with
    | none => none
    | some (c1, d) =>
      match getDepsStep rec c1 ps with
      | none => none
      | some (c2, ds) => some (c2, d ∪ ds)

/-- `ExtractIOFlowsWorker::get_dependencies`, with an explicit fuel bound on
the recursion depth (the C++ recursion has none and diverges on cyclic
predecessor graphs; `none` models failure to finish within the given depth).
Order of the checks mirrors the source: memo hit, non-wire constant,
primary-input wire, then union over recorded predecessors, caching
the result after the recursion returns. -/
def get_dependencies (pm : PredMap) : Nat → Cache → SigBit → Option (Cache × Finset SigBit)
  | 0, _, _ => none
  | n + 1, cache, sig =>
    match lookupCache cache sig with
    | some d => some (cache, d)
    | none =>
      match sig with
      | .const s => some ((SigBit.const s, (∅ : Finset SigBit)) :: cache, ∅)
      | .wire w off =>
        if w.port_input then
          some ((SigBit.wire w off, ({SigBit.wire w off} : Finset SigBit)) :: cache,
            {SigBit.wire w off})
        else
          match getDepsStep (get_dependencies pm n) cache (pm (.wire w off)) with
          | none => none
          | some (c1, d) => some ((SigBit.wire w off, d) :: c1, d)

/-- Pure (cache-free) counterpart of the predecessor-list union, used as the
specification value of `get_dependencies`. -/
def depsStep (rec : SigBit → Option (Finset SigBit)) :
    List SigBit → Option (Finset SigBit)
  | [] => some ∅
  | p :: ps =>
    match rec p with
    | none => none
    | some d =>
      match depsStep rec ps with
      | none => none
      | some ds => some (d ∪ ds)

/-- Pure (cache-free) dependency semantics with fuel: the value
`get_dependencies` computes, with the memoization stripped. -/
def depsOf (pm : PredMap) : Nat → SigBit → Option (Finset SigBit)
  | 0, _ => none
  | n + 1, sig =>
    match sig with
    | .const _ => some ∅
    | .wire w off =>
      if w.port_input then some {SigBit.wire w off}
      else depsStep (depsOf pm n) (pm (.wire w off))

/-- A bit has pure dependency value `d` if some fuel suffices to compute it. -/
def PureVal (pm : PredMap) (b : SigBit) (d : Finset SigBit) : Prop :=
  ∃ n, depsOf pm n b = some d

/-- A cache is sound if every entry records the pure dependency value. -/
def CacheSound (pm : PredMap) (cache : Cache) : Prop :=
  ∀ b d, lookupCache cache b = some d → PureVal pm b d

/-- The five primitive gate types the worker accepts
(the `log_assert` at the top of the cell loop). -/
def GATE_TYPES : List String := ["$_XOR_", "$_AND_", "$_OR_", "$_NOT_", "$_MUX_"]

/-- The pin-partition loop of the worker's cell scan: each pin must carry
exactly one bit (`log_assert(src.size() == 1)`); pin `\Y` joins the outputs,
pins `\A`, `\B`, `\S` join the inputs, anything else is a fatal assert.
Returns (input bits, output bits) in pin iteration order. -/
def collectPins : List (String × List SigBit) → Except String (List SigBit × List SigBit)
  | [] => Except.ok ([], [])
  | (pin, sig) :: rest =>
    if sig.length = 1 then
      if pin = "\\Y" then
        match collectPins rest with
        | Except.error e => Except.error e
        | Except.ok (ins, outs) => Except.ok (ins, sig ++ outs)
      else
        if pin = "\\A" ∨ pin = "\\B" ∨ pin = "\\S" then
          match collectPins rest with
          | Except.error e => Except.error e
          | Except.ok (ins, outs) => Except.ok (sig ++ ins, outs)
        else Except.error "unexpected pin name"
    else Except.error "cell pin connects to more than one bit"

/-- The edge-adding double loop of the cell scan: for every output bit and
every input bit, `add_sigbit_connection(input, output)`. -/
def addCellEdges (ins outs : List SigBit) (pm : PredMap) : PredMap :=
  outs.foldl (fun acc o => ins.foldl (fun acc2 i => add_sigbit_connection i o acc2) acc) pm

/-- Processing of one cell in the worker constructor: `$scopeinfo` is skipped,
a type outside the recognized primitive gates is fatal, otherwise the pins
are partitioned and the input-to-output edges added. -/
def processCell (pm : PredMap) (c : Cell) : Except String PredMap :=
  if c.type = "$scopeinfo" then Except.ok pm
  else
    if c.type ∈ GATE_TYPES then
      match collectPins c.conns with
      | Except.error e => Except.error e
      | Except.ok (ins, outs) => Except.ok (addCellEdges ins outs pm)
    else Except.error "unrecognized cell type"

/-- Processing of one connection pair in the worker constructor:
`log_assert(dest.size() == src.size())`, then per bit position an edge from
the source bit to the destination bit. -/
def processConn (pm : PredMap) (conn : List SigBit × List SigBit) : Except String PredMap :=
  if conn.1.length = conn.2.length then
    Except.ok ((conn.1.zip conn.2).foldl
      (fun acc p => add_sigbit_connection p.2 p.1 acc) pm)
  else Except.error "connection width mismatch"

/-- Graph-building phase of `ExtractIOFlowsWorker::ExtractIOFlowsWorker`:
fold the connection list, then the cell list, into the predecessor map,
starting from the empty map; any failed assert aborts. -/
def buildPredMap (m : RtlModule) : Except String PredMap := do
  let pm ← m.conns.foldlM processConn (fun _ => [])
  m.cells.foldlM processCell pm

/-- JSON values, with objects as ordered field lists (the emission order of
`PrettyJson` / `json11`). -/
inductive Json where
  | str (s : String)
  | num (n : Int)
  | arr (l : List Json)
  | obj (fields : List (String × Json))

/-- Field lookup in a JSON object field list. -/
def lookupField (fields : List (String × Json)) (k : String) : Option Json :=
  match fields with
  | [] => none
  | (k', v) :: rest => if k = k' then some v else lookupField rest k

/-- Field lookup on a JSON value (none on non-objects). -/
def Json.field : Json → String → Option Json
  | .obj fields, k => lookupField fields k
  | _, _ => none

/-- Index of a constant state, for the order-encoding below. -/
def BitState.idx : BitState → Nat
  | .S0 => 0
  | .S1 => 1
  | .Sx => 2
  | .Sz => 3

/-- Injective encoding of signal bits into a lexicographic product, giving a
total order mirroring the comparator of `std::set<RTLIL::SigBit>` (any total
order serves; only sortedness and injectivity matter). -/
def sigEnc (b : SigBit) : Bool ×ₗ String ×ₗ Nat ×ₗ Nat ×ₗ Bool ×ₗ Bool :=
  match b with
  | .wire w off => toLex (true, toLex (w.name, toLex (w.width, toLex (off,
      toLex (w.port_input, w.port_output)))))
  | .const s => toLex (false, toLex ("", toLex (s.idx, toLex (0, toLex (false, false)))))

instance : LinearOrder SigBit :=
  LinearOrder.lift' sigEnc (by
    rintro (⟨⟨n1, wd1, i1, o1⟩, off1⟩ | ⟨s1⟩) (⟨⟨n2, wd2, i2, o2⟩, off2⟩ | ⟨s2⟩) h <;>
      simp [sigEnc, toLex_inj, Prod.mk.injEq] at h
    · obtain ⟨h1, h2, h3, h4, h5⟩ := h
      simp_all
    · cases s1 <;> cases s2 <;> simp_all [BitState.idx])

/-- The (name, offset, width) descriptor emitted for a signal bit; the source
dereferences `dep.wire`, so the constant branch is unreachable there
(see the only-input-bits invariant below). -/
def sigDesc : SigBit → Json
  | .wire w off => Json.obj [("name", .str w.name), ("offset", .num (off : Int)),
      ("width", .num (w.width : Int))]
  | .const _ => Json.obj []

/-- `ExtractIOFlowsWorker::get_json_inputs_list`: descriptors of every bit of
every input port, in port declaration order then ascending offset. -/
def get_json_inputs_list (m : RtlModule) : Json :=
  Json.arr ((m.ports.filter (fun w => w.port_input)).flatMap
    (fun w => (List.range w.width).map (fun off => sigDesc (.wire w off))))

/-- `ExtractIOFlowsWorker::get_json_outputs_list`: descriptors of every bit of
every output port, in port declaration order then ascending offset. -/
def get_json_outputs_list (m : RtlModule) : Json :=
  Json.arr ((m.ports.filter (fun w => w.port_output)).flatMap
    (fun w => (List.range w.width).map (fun off => sigDesc (.wire w off))))

/-- The output-port bits in declaration order then ascending offset, as the
dictionary loop enumerates them. -/
def outputPortBits (m : RtlModule) : List (Wire × Nat) :=
  (m.ports.filter (fun w => w.port_output)).flatMap
    (fun w => (List.range w.width).map (fun off => (w, off)))

/-- The dependency list emitted for one output bit: one descriptor per member
of the dependency set (`std::set` iteration in comparator order; the order
carries no meaning). -/
def depJsonList (d : Finset SigBit) : List Json :=
  (d.sort (fun a b => a ≤ b)).map sigDesc

/-- The entry-building loop of `get_json_dependencies_dict`: for each output
bit, query its dependencies (threading the shared memoization cache) and
record the entry under key `name[offset]`. -/
def depsDictEntries (pm : PredMap) (fuel : Nat) :
    Cache → List (Wire × Nat) → Option (Cache × List (String × Json))
  | cache, [] => some (cache, [])
  | cache, (w, off) :: rest =>
    match get_dependencies pm fuel cache (.wire w off) with
    | none => none
    | some (c1, d) =>
      match depsDictEntries pm fuel c1 rest with
      | none => none
      | some (c2, l) =>
        some (c2, (w.name ++ "[" ++ toString off ++ "]", Json.arr (depJsonList d)) :: l)

/-- Byte-wise lexicographic comparison of character lists, mirroring
`std::string::operator<` (the key strings here are ASCII, where C++ byte
order and codepoint order agree). -/
def charListLe : List Char → List Char → Bool
  | [], _ => true
  | _ :: _, [] => false
  | a :: as, b :: bs =>
    if a.toNat < b.toNat then true
    else if b.toNat < a.toNat then false
    else charListLe as bs

/-- Lexicographic order on the dictionary key strings. -/
def keyLe (a b : String) : Bool := charListLe a.toList b.toList

/-- The `std::map<std::string, Json>` the dictionary is built in: entries are
iterated (hence emitted) in lexicographic key order. -/
def sortEntries (l : List (String × Json)) : List (String × Json) :=
  List.insertionSort (fun a b => keyLe a.1 b.1 = true) l

instance : IsTrans (String × Json) (fun a b => keyLe a.1 b.1 = true) := by
  constructor
  have H : ∀ la lb lc : List Char, charListLe la lb = true → charListLe lb lc = true →
      charListLe la lc = true := by
    intro la
    induction la with
    | nil => intro lb lc _ _; rfl
    | cons x xs ih =>
      intro lb lc hab hbc
      cases lb with
      | nil => simp [charListLe] at hab
      | cons y ys =>
        cases lc with
        | nil => simp [charListLe] at hbc
        | cons z zs =>
          simp only [charListLe] at hab hbc ⊢
          by_cases hxy : x.toNat < y.toNat <;> by_cases hyx : y.toNat < x.toNat <;>
            by_cases hyz : y.toNat < z.toNat <;> by_cases hzy : z.toNat < y.toNat <;>
            simp [hxy, hyx, hyz, hzy] at hab hbc ⊢ <;>
            first
              | omega
              | (have hxz : ¬ x.toNat < z.toNat := by omega
                 have hzx : ¬ z.toNat < x.toNat := by omega
                 simp [hxz, hzx, ih ys zs hab hbc]
                 omega)
  intro a b c hab hbc
  exact H a.1.toList b.1.toList c.1.toList hab hbc

instance : IsTotal (String × Json) (fun a b => keyLe a.1 b.1 = true) := by
  constructor
  have H : ∀ la lb : List Char, charListLe la lb = true ∨ charListLe lb la = true := by
    intro la
    induction la with
    | nil => intro lb; left; rfl
    | cons x xs ih =>
      intro lb
      cases lb with
      | nil => right; rfl
      | cons y ys =>
        simp only [charListLe]
        rcases Nat.lt_trichotomy x.toNat y.toNat with h | h | h
        · left; simp [h]
        · have h1 : ¬ x.toNat < y.toNat := by omega
          have h2 : ¬ y.toNat < x.toNat := by omega
          rcases ih ys with h3 | h3
          · left; simp [h1, h2, h3]
          · right; simp [h1, h2, h3]
        · right; simp [h]
  intro a b
  exact H a.1.toList b.1.toList

/-- `ExtractIOFlowsWorker::get_json_dependencies_dict`: the per-output-bit
dependency dictionary, keys ordered as `std::map` orders them. -/
def get_json_dependencies_dict (m : RtlModule) (pm : PredMap) (fuel : Nat) : Option Json :=
  match depsDictEntries pm fuel [] (outputPortBits m) with
  | none => none
  | some (_, l) => some (Json.obj (sortEntries l))

/-- The report the worker constructor emits: the four fields in emission
order (`module`, `inputs`, `outputs`, `dependencies`). -/
def workerReport (m : RtlModule) (pm : PredMap) (fuel : Nat) : Option Json :=
  match get_json_dependencies_dict m pm fuel with
  | none => none
  | some dj => some (Json.obj [("module", .str m.name),
      ("inputs", get_json_inputs_list m),
      ("outputs", get_json_outputs_list m),
      ("dependencies", dj)])

/-- `SEQ_ELEMENTS`: the marker tokens denoting state-holding primitives. -/
def SEQ_ELEMENTS : List String := ["FF", "DLATCH", "DLE", "SR", "mem"]

/-- `std::string::find(tok) != npos`: case-sensitive substring containment. -/
def strContains (s tok : String) : Bool := decide (tok.toList <:+: s.toList)

/-- `ExtractIOFlowsPass::is_sequential`: a cell is sequential iff its type
name contains one of the marker tokens. -/
def is_sequential (c : Cell) : Bool :=
  SEQ_ELEMENTS.any (fun e => strContains c.type e)

/-- The sequential-cell scan of `ExtractIOFlowsPass::execute`: the module is
sequential iff some cell is. -/
def moduleIsSequential (m : RtlModule) : Bool := m.cells.any is_sequential

/-- Outcome of the per-module body of `ExtractIOFlowsPass::execute`:
a sequential module is skipped with a log notice only; a failed assert in the
worker is fatal; otherwise the worker emits its JSON report. -/
inductive ModuleResult where
  | skipped
  | fatal (msg : String)
  | report (j : Json)

/-- Per-module body of `ExtractIOFlowsPass::execute`: classify, then (only if
combinational) run the worker; `none` models a dependency recursion that does
not finish within `fuel`. -/
def analyzeModule (fuel : Nat) (m : RtlModule) : Option ModuleResult :=
  if moduleIsSequential m then some ModuleResult.skipped
  else
    match buildPredMap m with
    | Except.error e => some (ModuleResult.fatal e)
    | Except.ok pm =>
      match workerReport m pm fuel with
      | none => none
      | some j => some (ModuleResult.report j)

/-! Concrete wires, bits, modules and predecessor maps used by the witness
and counterexample statements below. -/

/-- Example 1-bit input port wire `\a`. -/
def aWire : Wire := ⟨"\\a", 1, true, false⟩

/-- Example 1-bit input port wire `\b`. -/
def bWire : Wire := ⟨"\\b", 1, true, false⟩

/-- Example 1-bit output port wire `\y`. -/
def yWire : Wire := ⟨"\\y", 1, false, true⟩

/-- Example 1-bit input port wire `\s` (a mux select). -/
def sWire : Wire := ⟨"\\s", 1, true, false⟩

/-- Bit 0 of `\a`. -/
def aBit : SigBit := .wire aWire 0

/-- Bit 0 of `\b`. -/
def bBit : SigBit := .wire bWire 0

/-- Bit 0 of `\y`. -/
def yBit : SigBit := .wire yWire 0

/-- Bit 0 of `\s`. -/
def sBit : SigBit := .wire sWire 0

/-- An AND gate cell driving `\y` from `\a` and `\b`. -/
def andCell : Cell := ⟨"$_AND_", [("\\A", [aBit]), ("\\B", [bBit]), ("\\Y", [yBit])]⟩

/-- A module with one AND gate: inputs `\a`, `\b`, output `\y`. -/
def andModule : RtlModule := ⟨"\\andmod", [aWire, bWire, yWire], [], [andCell]⟩

/-- A mux cell driving `\y` from data inputs `\a`, `\b` and select `\s`. -/
def muxCell : Cell :=
  ⟨"$_MUX_", [("\\A", [aBit]), ("\\B", [bBit]), ("\\S", [sBit]), ("\\Y", [yBit])]⟩

/-- A predecessor map in which `\y[0]` has exactly the predecessors
`\a[0]` and `\b[0]`. -/
def pmTwoPreds : PredMap := fun b => if b = yBit then [aBit, bBit] else []

/-- A predecessor map in which `\y[0]` has three predecessors — the shape a
mux output produces (`\a[0]`, `\b[0]` and the select `\s[0]`). -/
def pmThreePreds : PredMap := fun b => if b = yBit then [aBit, bBit, sBit] else []

/-- A 1-bit output port wire used to build a combinational loop. -/
def loopOutWire : Wire := ⟨"\\lo", 1, false, true⟩

/-- Bit 0 of the loop output wire. -/
def loopOutBit : SigBit := .wire loopOutWire 0

/-- A module whose single connection drives the output bit from itself
(a combinational loop), with no cells. -/
def loopModule : RtlModule :=
  ⟨"\\loop", [loopOutWire], [([loopOutBit], [loopOutBit])], []⟩

/-- An 11-bit output port named `y`. -/
def w11 : Wire := ⟨"y", 11, false, true⟩

/-- A module with only the 11-bit output port (no logic), used to exhibit the
lexicographic dictionary key order. -/
def mod11 : RtlModule := ⟨"m11", [w11], [], []⟩

/-- A module containing a cell of type `DFF` (classified sequential). -/
def dffModule : RtlModule := ⟨"\\sm", [aWire, yWire], [], [⟨"DFF", []⟩]⟩

/-- A module with a width-mismatched connection: destination `\y[0]` (1 bit),
source `\a[0] \b[0]` (2 bits). -/
def badConnModule : RtlModule :=
  ⟨"\\bc", [aWire, yWire], [([yBit], [aBit, bBit])], []⟩

/-- A module containing a cell of unrecognized type `$add`. -/
def badTypeModule : RtlModule := ⟨"\\bt", [aWire, yWire], [], [⟨"$add", []⟩]⟩

/-- A module containing an AND cell whose `\A` pin carries two bits. -/
def badPinModule : RtlModule :=
  ⟨"\\bp", [aWire, yWire], [], [⟨"$_AND_", [("\\A", [aBit, bBit]), ("\\Y", [yBit])]⟩]⟩

/-- Top-level field names of an emitted report (empty for non-reports). -/
def resultFieldNames : Option ModuleResult → List String
  | some (ModuleResult.report (Json.obj fields)) => fields.map (fun f => f.1)
  | _ => []

/-- The keys of the `dependencies` object of an emitted report, in emitted
order (empty for non-reports). -/
def resultDepKeys : Option ModuleResult → List String
  | some (ModuleResult.report j) =>
    match j.field "dependencies" with
    | some (Json.obj l) => l.map (fun f => f.1)
    | _ => []
  | _ => []

/-- If a recursive oracle is refined by another on the members of `ps`,
`depsStep` results carry over. -/
theorem depsStep_mono_rec {rec1 rec2 : SigBit → Option (Finset SigBit)} :
    ∀ ps : List SigBit, (∀ p ∈ ps, ∀ d, rec1 p = some d → rec2 p = some d) →
    ∀ d, depsStep rec1 ps = some d → depsStep rec2 ps = some d := by
  intro ps
  induction ps with
  | nil => intro _ d h; exact h
  | cons p ps ih =>
    intro hrec d h
    simp only [depsStep] at h ⊢
    cases h1 : rec1 p with
    | none => rw [h1] at h; exact absurd h (by simp)
    | some d1 =>
      rw [h1] at h
      cases h2 : depsStep rec1 ps with
      | none => rw [h2] at h; exact absurd h (by simp)
      | some ds =>
        rw [h2] at h
        rw [hrec p (by simp) d1 h1, ih (fun q hq => hrec q (List.mem_cons_of_mem _ hq)) ds h2]
        exact h

/-- Fuel monotonicity of the pure dependency semantics. -/
theorem depsOf_mono (pm : PredMap) :
    ∀ n m b d, depsOf pm n b = some d → n ≤ m → depsOf pm m b = some d := by
  intro n
  induction n with
  | zero => intro m b d h; simp [depsOf] at h
  | succ n ih =>
    intro m b d h hle
    obtain ⟨m', rfl⟩ : ∃ m', m = m' + 1 := ⟨m - 1, by omega⟩
    cases b with
    | const s => simpa [depsOf] using h
    | wire w off =>
      simp only [depsOf] at h ⊢
      cases hin : w.port_input with
      | true => simpa [hin] using h
      | false =>
        rw [hin] at h
        simp only [Bool.false_eq_true, if_false] at h ⊢
        exact depsStep_mono_rec _ (fun p _ dp hp => ih m' p dp hp (by omega)) d h

/-- The pure dependency value of a bit is unique across fuels. -/
theorem pureVal_unique {pm : PredMap} {b : SigBit} {d1 d2 : Finset SigBit}
    (h1 : PureVal pm b d1) (h2 : PureVal pm b d2) : d1 = d2 := by
  obtain ⟨n1, h1⟩ := h1
  obtain ⟨n2, h2⟩ := h2
  have e1 := depsOf_mono pm n1 (max n1 n2) b d1 h1 (le_max_left _ _)
  have e2 := depsOf_mono pm n2 (max n1 n2) b d2 h2 (le_max_right _ _)
  rw [e1] at e2
  exact Option.some.inj e2

/-- Extending a sound cache with a pure value keeps it sound. -/
theorem cacheSound_cons {pm : PredMap} {cache : Cache} {b : SigBit} {d : Finset SigBit}
    (hs : CacheSound pm cache) (hd : PureVal pm b d) :
    CacheSound pm ((b, d) :: cache) := by
  intro b2 d2 h
  simp only [lookupCache] at h
  by_cases heq : b2 = b
  · rw [if_pos heq] at h
    exact heq ▸ (Option.some.inj h ▸ hd)
  · rw [if_neg heq] at h
    exact hs b2 d2 h

/-- The empty cache is sound. -/
theorem cacheSound_nil (pm : PredMap) : CacheSound pm [] := by
  intro b d h
  simp [lookupCache] at h

/-- Soundness of the predecessor-loop step: given a sound recursive oracle,
a successful pass over a predecessor list yields a sound cache and the pure
union value at some fuel. -/
theorem getDepsStep_sound {pm : PredMap} {rec : Cache → SigBit → Option (Cache × Finset SigBit)}
    (hrec : ∀ cache b c1 d, CacheSound pm cache → rec cache b = some (c1, d) →
      CacheSound pm c1 ∧ PureVal pm b d) :
    ∀ ps cache c1 d, CacheSound pm cache →
      getDepsStep rec cache ps = some (c1, d) →
      CacheSound pm c1 ∧ ∃ m, depsStep (depsOf pm m) ps = some d := by
  intro ps
  induction ps with
  | nil =>
    intro cache c1 d hs h
    simp only [getDepsStep, Option.some.injEq, Prod.mk.injEq] at h
    obtain ⟨rfl, rfl⟩ := h
    exact ⟨hs, 0, rfl⟩
  | cons p ps ih =>
    intro cache c1 d hs h
    simp only [getDepsStep] at h
    split at h
    · exact absurd h (by simp)
    · rename_i ca d1 h1
      split at h
      · exact absurd h (by simp)
      · rename_i cb d2 h2
        simp only [Option.some.injEq, Prod.mk.injEq] at h
        obtain ⟨rfl, rfl⟩ := h
        obtain ⟨hsa, hp⟩ := hrec cache p ca d1 hs h1
        obtain ⟨hsb, m2, hm2⟩ := ih ca cb d2 hsa h2
        obtain ⟨m1, hm1⟩ := hp
        refine ⟨hsb, max m1 m2, ?_⟩
        simp only [depsStep]
        rw [depsOf_mono pm m1 (max m1 m2) p d1 hm1 (le_max_left _ _),
          depsStep_mono_rec ps
            (fun q _ dq hq => depsOf_mono pm m2 (max m1 m2) q dq hq (le_max_right _ _)) d2 hm2]

/-- Memoization correctness of `get_dependencies`: starting from a sound
cache, a successful query returns the pure dependency value of the bit and
leaves the cache sound. -/
theorem get_dependencies_sound (pm : PredMap) :
    ∀ n cache b c1 d, CacheSound pm cache →
      get_dependencies pm n cache b = some (c1, d) → CacheSound pm c1 ∧ PureVal pm b d := by
  intro n
  induction n with
  | zero => intro cache b c1 d _ h; simp [get_dependencies] at h
  | succ n ih =>
    intro cache b c1 d hs h
    simp only [get_dependencies] at h
    split at h
    · rename_i d0 hl
      simp only [Option.some.injEq, Prod.mk.injEq] at h
      obtain ⟨rfl, rfl⟩ := h
      exact ⟨hs, hs b d0 hl⟩
    · rename_i hl
      split at h
      · rename_i s
        simp only [Option.some.injEq, Prod.mk.injEq] at h
        obtain ⟨rfl, rfl⟩ := h
        have hp : PureVal pm (SigBit.const s) ∅ := ⟨1, by simp [depsOf]⟩
        exact ⟨cacheSound_cons hs hp, hp⟩
      · rename_i w off
        by_cases hin : w.port_input = true
        · rw [if_pos hin] at h
          simp only [Option.some.injEq, Prod.mk.injEq] at h
          obtain ⟨rfl, rfl⟩ := h
          have hp : PureVal pm (SigBit.wire w off) {SigBit.wire w off} :=
            ⟨1, by simp [depsOf, hin]⟩
          exact ⟨cacheSound_cons hs hp, hp⟩
        · rw [if_neg hin] at h
          split at h
          · exact absurd h (by simp)
          · rename_i cs ds hstep
            simp only [Option.some.injEq, Prod.mk.injEq] at h
            obtain ⟨rfl, rfl⟩ := h
            obtain ⟨hss, m, hm⟩ :=
              getDepsStep_sound (fun ca bb cc dd hsc hq => ih ca bb cc dd hsc hq)
                (pm (.wire w off)) cache cs ds hs hstep
            have hp : PureVal pm (SigBit.wire w off) ds :=
              ⟨m + 1, by simp [depsOf, Bool.not_eq_true _ ▸ hin, hm]⟩
            exact ⟨cacheSound_cons hss hp, hp⟩

/-- Each predecessor's dependency value is contained in the union a
successful `depsStep` pass returns. -/
theorem depsStep_subset {rec : SigBit → Option (Finset SigBit)} :
    ∀ ps d p, p ∈ ps → depsStep rec ps = some d →
      ∃ dp, rec p = some dp ∧ dp ⊆ d := by
  intro ps
  induction ps with
  | nil => intro d p hp; simp at hp
  | cons q ps ih =>
    intro d p hp h
    simp only [depsStep] at h
    split at h
    · exact absurd h (by simp)
    · rename_i d1 h1
      split at h
      · exact absurd h (by simp)
      · rename_i ds h2
        simp only [Option.some.injEq] at h
        subst h
        rcases List.mem_cons.1 hp with rfl | hp2
        · exact ⟨d1, h1, Finset.subset_union_left⟩
        · obtain ⟨dp, hdp, hsub⟩ := ih ds p hp2 h2
          exact ⟨dp, hdp, hsub.trans Finset.subset_union_right⟩

/-- Every member of a successful `depsStep` union comes from the dependency
value of some predecessor in the list. -/
theorem depsStep_mem {rec : SigBit → Option (Finset SigBit)} :
    ∀ ps d, depsStep rec ps = some d →
      ∀ x ∈ d, ∃ p ∈ ps, ∃ dp, rec p = some dp ∧ x ∈ dp := by
  intro ps
  induction ps with
  | nil =>
    intro d h x hx
    simp only [depsStep, Option.some.injEq] at h
    subst h
    simp at hx
  | cons q ps ih =>
    intro d h x hx
    simp only [depsStep] at h
    split at h
    · exact absurd h (by simp)
    · rename_i d1 h1
      split at h
      · exact absurd h (by simp)
      · rename_i ds h2
        simp only [Option.some.injEq] at h
        subst h
        rcases Finset.mem_union.1 hx with hx1 | hx2
        · exact ⟨q, List.mem_cons_self _ _, d1, h1, hx1⟩
        · obtain ⟨p, hp, dp, hdp, hxdp⟩ := ih ds h2 x hx2
          exact ⟨p, List.mem_cons_of_mem _ hp, dp, hdp, hxdp⟩

/-- Every member of a pure dependency value is a primary-input wire bit. -/
theorem depsOf_only_inputs (pm : PredMap) :
    ∀ n b d, depsOf pm n b = some d →
      ∀ x ∈ d, ∃ w off, x = SigBit.wire w off ∧ w.port_input = true := by
  intro n
  induction n with
  | zero => intro b d h; simp [depsOf] at h
  | succ n ih =>
    intro b d h x hx
    cases b with
    | const s =>
      simp only [depsOf, Option.some.injEq] at h
      subst h
      simp at hx
    | wire w off =>
      simp only [depsOf] at h
      by_cases hin : w.port_input = true
      · rw [if_pos hin] at h
        simp only [Option.some.injEq] at h
        subst h
        simp only [Finset.mem_singleton] at hx
        subst hx
        exact ⟨w, off, rfl, hin⟩
      · rw [if_neg hin] at h
        obtain ⟨p, _, dp, hdp, hxdp⟩ := depsStep_mem _ _ h x hx
        exact ih p dp hdp x hxdp

/-- Completeness of the memoized query with respect to the pure semantics:
fuel that suffices without the cache also suffices starting from any sound
cache (the cache can only short-circuit work, never add any). -/
theorem get_dependencies_complete (pm : PredMap) :
    ∀ m b dp, depsOf pm m b = some dp →
      ∀ cache, CacheSound pm cache →
        ∃ c1 d1, get_dependencies pm m cache b = some (c1, d1) := by
  intro m
  induction m with
  | zero => intro b dp h; simp [depsOf] at h
  | succ m ih =>
    intro b dp h cache hs
    cases hl : lookupCache cache b with
    | some d0 => exact ⟨cache, d0, by simp [get_dependencies, hl]⟩
    | none =>
      cases b with
      | const s =>
        exact ⟨(SigBit.const s, ∅) :: cache, ∅, by simp [get_dependencies, hl]⟩
      | wire w off =>
        by_cases hin : w.port_input = true
        · exact ⟨(SigBit.wire w off, {SigBit.wire w off}) :: cache, {SigBit.wire w off},
            by simp [get_dependencies, hl, hin]⟩
        · simp only [depsOf] at h
          rw [if_neg hin] at h
          have hstep : ∀ ps dps, depsStep (depsOf pm m) ps = some dps →
              ∀ cache2, CacheSound pm cache2 →
                ∃ c2 d2, getDepsStep (get_dependencies pm m) cache2 ps = some (c2, d2) := by
            intro ps
            induction ps with
            | nil => intro dps _ cache2 _; exact ⟨cache2, ∅, rfl⟩
            | cons q ps ihq =>
              intro dps hq cache2 hs2
              simp only [depsStep] at hq
              split at hq
              · exact absurd hq (by simp)
              · rename_i d1 hd1
                split at hq
                · exact absurd hq (by simp)
                · rename_i ds hds
                  obtain ⟨cq, dq, hgq⟩ := ih q d1 hd1 cache2 hs2
                  have hsq : CacheSound pm cq :=
                    (get_dependencies_sound pm m cache2 q cq dq hs2 hgq).1
                  obtain ⟨cr, dr, hgr⟩ := ihq ds hds cq hsq
                  exact ⟨cr, dq ∪ dr, by simp [getDepsStep, hgq, hgr]⟩
          obtain ⟨c2, d2, hg⟩ := hstep (pm (SigBit.wire w off)) dp h cache hs
          exact ⟨(SigBit.wire w off, d2) :: c2, d2,
            by simp [get_dependencies, hl, hin, hg]⟩

/-- Claim C3: for a wire bit that is not a primary input, the dependency
query returns the union of the dependency sets of every predecessor recorded
for it — each predecessor's set is contained in the result, and every member
of the result comes from some predecessor; with no recorded predecessor the
result is the empty set, and with exactly the predecessors `p1` and `p2` the
result is the union of the values the query returns for `p1` and for `p2`. -/
theorem C3_dependencies_union_of_predecessors (pm : PredMap) (w : Wire) (off : Nat)
    (hw : w.port_input = false) (n : Nat) (c : Cache) (d : Finset SigBit)
    (h : get_dependencies pm n [] (SigBit.wire w off) = some (c, d)) :
    (∀ p ∈ pm (SigBit.wire w off),
      ∀ m1 ci dp, get_dependencies pm m1 [] p = some (ci, dp) → dp ⊆ d) ∧
    (∀ x ∈ d, ∃ p ∈ pm (SigBit.wire w off),
      ∃ m1 ci dp, get_dependencies pm m1 [] p = some (ci, dp) ∧ x ∈ dp) ∧
    (pm (SigBit.wire w off) = [] → d = ∅) ∧
    (∀ p1 p2, pm (SigBit.wire w off) = [p1, p2] →
      ∀ n1 c1 d1, get_dependencies pm n1 [] p1 = some (c1, d1) →
      ∀ n2 c2 d2, get_dependencies pm n2 [] p2 = some (c2, d2) →
      d = d1 ∪ d2) := by
  obtain ⟨-, m, hm⟩ :=
    get_dependencies_sound pm n [] (SigBit.wire w off) c d (cacheSound_nil pm) h
  cases m with
  | zero => simp [depsOf] at hm
  | succ m =>
    simp only [depsOf, hw, Bool.false_eq_true, if_false] at hm
    refine ⟨?_, ?_, ?_, ?_⟩
    · intro p hp m1 ci dp hq
      obtain ⟨dpp, hdpp, hsub⟩ := depsStep_subset (pm (SigBit.wire w off)) d p hp hm
      obtain ⟨-, hpv⟩ := get_dependencies_sound pm m1 [] p ci dp (cacheSound_nil pm) hq
      have hde : dp = dpp := pureVal_unique hpv ⟨m, hdpp⟩
      rw [hde]
      exact hsub
    · intro x hx
      obtain ⟨p, hp, dpp, hdpp, hxp⟩ := depsStep_mem (pm (SigBit.wire w off)) d hm x hx
      obtain ⟨c1, d1, hg⟩ := get_dependencies_complete pm m p dpp hdpp [] (cacheSound_nil pm)
      obtain ⟨-, hpv⟩ := get_dependencies_sound pm m [] p c1 d1 (cacheSound_nil pm) hg
      have hd1 : d1 = dpp := pureVal_unique hpv ⟨m, hdpp⟩
      refine ⟨p, hp, m, c1, d1, hg, ?_⟩
      rw [hd1]
      exact hxp
    · intro hnil
      rw [hnil] at hm
      simp only [depsStep, Option.some.injEq] at hm
      exact hm.symm
    · intro p1 p2 hpreds n1 c1 d1 h1 n2 c2 d2 h2
      rw [hpreds] at hm
      simp only [depsStep] at hm
      split at hm
      · exact absurd hm (by simp)
      · rename_i e1 he1
        split at hm
        · exact absurd hm (by simp)
        · rename_i es hes
          simp only [Option.some.injEq] at hm
          split at hes
          · exact absurd hes (by simp)
          · rename_i e2 he2
            simp only [Option.some.injEq] at hes
            subst hes
            obtain ⟨-, hp1⟩ :=
              get_dependencies_sound pm n1 [] p1 c1 d1 (cacheSound_nil pm) h1
            obtain ⟨-, hp2⟩ :=
              get_dependencies_sound pm n2 [] p2 c2 d2 (cacheSound_nil pm) h2
            have e1d : d1 = e1 := pureVal_unique hp1 ⟨m, he1⟩
            have e2d : d2 = e2 := pureVal_unique hp2 ⟨m, he2⟩
            subst e1d
            subst e2d
            rw [← hm]
            simp

/-- Witness for C3 at a concrete three-predecessor map (the mux shape):
`\y[0]` has predecessors `\a[0]`, `\b[0]`, `\s[0]`; the select's dependency
set is contained in the result and the select is accounted to some
predecessor; and at the two-predecessor map the result is the union. -/
theorem C3_witness :
    (∃ c d c2 d2,
      get_dependencies pmThreePreds 2 [] yBit = some (c, d) ∧
      get_dependencies pmThreePreds 1 [] sBit = some (c2, d2) ∧
      d2 ⊆ d ∧
      (∃ p ∈ pmThreePreds yBit, ∃ m1 ci dp,
        get_dependencies pmThreePreds m1 [] p = some (ci, dp) ∧ sBit ∈ dp)) ∧
    (∃ c d c1 d1 c2 d2,
      get_dependencies pmTwoPreds 2 [] yBit = some (c, d) ∧
      get_dependencies pmTwoPreds 1 [] aBit = some (c1, d1) ∧
      get_dependencies pmTwoPreds 1 [] bBit = some (c2, d2) ∧
      d = d1 ∪ d2) := by
  constructor
  · refine ⟨_, _, _, _, rfl, rfl, ?_, ?_⟩
    · exact (C3_dependencies_union_of_predecessors pmThreePreds yWire 0 rfl 2 _ _ rfl).1
        sBit (by decide) 1 _ _ rfl
    · exact (C3_dependencies_union_of_predecessors pmThreePreds yWire 0 rfl 2 _ _ rfl).2.1
        sBit (by decide)
  · refine ⟨_, _, _, _, _, _, rfl, rfl, rfl, ?_⟩
    exact (C3_dependencies_union_of_predecessors pmTwoPreds yWire 0 rfl 2 _ _ rfl).2.2.2
      aBit bBit rfl 1 _ _ rfl 1 _ _ rfl

/-- Claim C4: for a bit of a primary-input wire, the first dependency query
returns exactly the singleton containing the bit itself — whatever
predecessors the map records for it. -/
theorem C4_primary_input_self_dependency (pm : PredMap) (w : Wire) (off : Nat) (n : Nat)
    (h : w.port_input = true) :
    get_dependencies pm (n + 1) [] (SigBit.wire w off) =
      some ([(SigBit.wire w off, {SigBit.wire w off})], {SigBit.wire w off}) := by
  simp [get_dependencies, lookupCache, h]

/-- Witness for C4: the input bit `\a[0]`, with a predecessor recorded for it,
still yields only itself. -/
theorem C4_witness :
    get_dependencies (fun _ => [bBit]) 1 [] aBit = some ([(aBit, {aBit})], {aBit}) :=
  C4_primary_input_self_dependency (fun _ => [bBit]) aWire 0 0 rfl

/-- Claim C10: every member of a dependency set returned by the query is a
bit of a primary-input wire; in particular no constant bit ever appears. -/
theorem C10_dependencies_are_primary_input_bits (pm : PredMap) (n : Nat) (b : SigBit)
    (c : Cache) (d : Finset SigBit)
    (h : get_dependencies pm n [] b = some (c, d)) :
    (∀ x ∈ d, ∃ w off, x = SigBit.wire w off ∧ w.port_input = true) ∧
    (∀ s, SigBit.const s ∉ d) := by
  obtain ⟨-, m, hm⟩ := get_dependencies_sound pm n [] b c d (cacheSound_nil pm) h
  refine ⟨depsOf_only_inputs pm m b d hm, fun s hs => ?_⟩
  obtain ⟨w2, off2, heq, -⟩ := depsOf_only_inputs pm m b d hm _ hs
  simp at heq

/-- Witness for C10 at the two-predecessor map. -/
theorem C10_witness :
    ∃ c d, get_dependencies pmTwoPreds 2 [] yBit = some (c, d) ∧
      ∀ s, SigBit.const s ∉ d := by
  refine ⟨_, _, rfl, ?_⟩
  exact (C10_dependencies_are_primary_input_bits pmTwoPreds 2 yBit _ _ rfl).2

/-- On a self-loop bit (its own predecessor, not a primary input) the query
fails at every depth bound as long as the bit is not already cached: the
memoization writes its entry only after the recursion returns, so it does not
guard against combinational cycles. -/
theorem self_loop_query_none (pm : PredMap) (w : Wire) (off : Nat)
    (hw : w.port_input = false) (hb : pm (SigBit.wire w off) = [SigBit.wire w off]) :
    ∀ n cache, lookupCache cache (SigBit.wire w off) = none →
      get_dependencies pm n cache (SigBit.wire w off) = none := by
  intro n
  induction n with
  | zero => intro cache _; rfl
  | succ n ih =>
    intro cache hc
    simp [get_dependencies, hc, hb, hw, getDepsStep, ih cache hc]

/-- Success of the query given a rank function that strictly decreases along
recorded predecessors (an acyclicity certificate): rank bounds the fuel. -/
theorem rank_success (pm : PredMap) (rk : SigBit → Nat)
    (hrk : ∀ b p, p ∈ pm b → rk p < rk b) :
    ∀ n b cache, rk b < n → ∃ r, get_dependencies pm n cache b = some r := by
  intro n
  induction n using Nat.strong_induction_on with
  | _ n ih =>
    intro b cache hlt
    obtain ⟨n', rfl⟩ : ∃ n', n = n' + 1 := ⟨n - 1, by omega⟩
    cases hl : lookupCache cache b with
    | some d => exact ⟨(cache, d), by simp [get_dependencies, hl]⟩
    | none =>
      cases b with
      | const s =>
        exact ⟨((SigBit.const s, ∅) :: cache, ∅), by simp [get_dependencies, hl]⟩
      | wire w off =>
        by_cases hin : w.port_input = true
        · exact ⟨((SigBit.wire w off, {SigBit.wire w off}) :: cache, {SigBit.wire w off}),
            by simp [get_dependencies, hl, hin]⟩
        · have hstep : ∀ ps, (∀ p ∈ ps, rk p < n') → ∀ cache2,
              ∃ r, getDepsStep (get_dependencies pm n') cache2 ps = some r := by
            intro ps
            induction ps with
            | nil => intro _ cache2; exact ⟨(cache2, ∅), rfl⟩
            | cons q ps ihq =>
              intro hps cache2
              obtain ⟨⟨cq, dq⟩, hq⟩ := ih n' (by omega) q cache2 (hps q (by simp))
              obtain ⟨⟨cr, dr⟩, hr⟩ := ihq (fun p hp => hps p (by simp [hp])) cq
              exact ⟨(cr, dq ∪ dr), by simp [getDepsStep, hq, hr]⟩
          have hpred : ∀ p ∈ pm (SigBit.wire w off), rk p < n' := by
            intro p hp
            have := hrk _ p hp
            omega
          obtain ⟨⟨cs, ds⟩, hs⟩ := hstep (pm (.wire w off)) hpred cache
          refine ⟨((SigBit.wire w off, ds) :: cs, ds), ?_⟩
          simp [get_dependencies, hl, hin, hs]

/-- Claim C9 (amended): when the predecessor graph is acyclic — witnessed by
a rank function strictly decreasing along predecessors — every dependency
query succeeds within fuel rank + 1, and a bit already memoized is answered
from the cache at once, with the cache unchanged. -/
theorem C9_terminates_on_acyclic (pm : PredMap) (rk : SigBit → Nat)
    (hrk : ∀ b p, p ∈ pm b → rk p < rk b) :
    (∀ b cache, ∃ r, get_dependencies pm (rk b + 1) cache b = some r) ∧
    (∀ n cache b d, lookupCache cache b = some d →
      get_dependencies pm (n + 1) cache b = some (cache, d)) := by
  constructor
  · intro b cache
    exact rank_success pm rk hrk (rk b + 1) b cache (by omega)
  · intro n cache b d hc
    simp [get_dependencies, hc]

/-- Witness for the amended C9: the empty predecessor map is ranked by the
constant rank, so queries succeed, and a cached bit is served from the cache. -/
theorem C9_witness :
    (∃ r, get_dependencies (fun _ => []) 1 [] (SigBit.const BitState.S0) = some r) ∧
    get_dependencies (fun _ => []) 1 [(aBit, {aBit})] aBit =
      some ([(aBit, {aBit})], {aBit}) := by
  obtain ⟨h1, h2⟩ := C9_terminates_on_acyclic (fun _ => []) (fun _ => 0) (by simp)
  exact ⟨h1 (SigBit.const BitState.S0) [],
    h2 0 [(aBit, {aBit})] aBit {aBit} (by simp [lookupCache])⟩

/-- Counterexample to claim C9 as stated: a module exists (an output bit
driven by itself through a connection) whose dependency analysis does not
finish at any recursion-depth bound — the memoization does not bound the
computation on a cyclic signal graph. -/
theorem C9_counterexample : ¬ ∃ fuel r, analyzeModule fuel loopModule = some r := by
  rintro ⟨fuel, r, h⟩
  have hpm : buildPredMap loopModule =
      Except.ok (add_sigbit_connection loopOutBit loopOutBit (fun _ => [])) := rfl
  have hq : get_dependencies (add_sigbit_connection loopOutBit loopOutBit (fun _ => []))
      fuel [] (SigBit.wire loopOutWire 0) = none :=
    self_loop_query_none _ loopOutWire 0 rfl (by decide) fuel [] rfl
  have hseq : moduleIsSequential loopModule = false := rfl
  have hout : outputPortBits loopModule = [(loopOutWire, 0)] := rfl
  simp only [analyzeModule, hseq, Bool.false_eq_true, if_false, hpm, workerReport,
    get_json_dependencies_dict, hout, depsDictEntries, hq] at h
  exact Option.noConfusion h

/-- Claim C6: the classifier marks a module sequential iff some cell's type
name contains one of the fixed marker tokens as a case-sensitive substring;
in particular type name `DFF` is sequential, any type name containing
`DLATCH` is sequential, the four primitive gate type names are
combinational, and the empty type name is never sequential. -/
theorem C6_classifier (m : RtlModule) :
    (moduleIsSequential m = true ↔
      ∃ c ∈ m.cells, ∃ tok ∈ SEQ_ELEMENTS, tok.toList <:+: c.type.toList) ∧
    (∀ pins : List (String × List SigBit), is_sequential ⟨"DFF", pins⟩ = true) ∧
    (∀ c : Cell, strContains c.type "DLATCH" = true → is_sequential c = true) ∧
    (∀ c : Cell, c.type ∈ ["$_AND_", "$_OR_", "$_XOR_", "$_NOT_"] →
      is_sequential c = false) ∧
    (∀ pins : List (String × List SigBit), is_sequential ⟨"", pins⟩ = false) := by
  refine ⟨?_, fun pins => rfl, ?_, ?_, fun pins => rfl⟩
  · simp only [moduleIsSequential, List.any_eq_true, is_sequential, strContains,
      decide_eq_true_eq]
  · intro c h
    simp only [is_sequential, List.any_eq_true]
    exact ⟨"DLATCH", by simp [SEQ_ELEMENTS], h⟩
  · intro c h
    obtain ⟨ty, pins⟩ := c
    simp only [List.mem_cons, List.not_mem_nil, or_false] at h
    rcases h with rfl | rfl | rfl | rfl <;> rfl

/-- Witness for C6 at concrete cells: `DFF` and a name containing `DLATCH`
are sequential, `$_AND_` is not. -/
theorem C6_witness :
    is_sequential ⟨"DFF", []⟩ = true ∧ is_sequential ⟨"xDLATCHy", []⟩ = true ∧
    is_sequential ⟨"$_AND_", []⟩ = false := by
  obtain ⟨-, h2, h3, h4, -⟩ := C6_classifier ⟨"m", [], [], []⟩
  exact ⟨h2 [], h3 ⟨"xDLATCHy", []⟩ (by decide), h4 ⟨"$_AND_", []⟩ (by simp)⟩

/-- A connection list containing a width-mismatched pair folds to an error. -/
theorem foldlM_conns_error :
    ∀ (conns : List (List SigBit × List SigBit)) (pm : PredMap),
      (∃ c ∈ conns, c.1.length ≠ c.2.length) →
      ∃ e, conns.foldlM processConn pm = Except.error e := by
  intro conns
  induction conns with
  | nil => simp
  | cons c cs ih =>
    intro pm hex
    by_cases hc : c.1.length = c.2.length
    · have hex2 : ∃ c2 ∈ cs, c2.1.length ≠ c2.2.length := by
        rcases hex with ⟨c2, hmem, hbad⟩
        rcases List.mem_cons.1 hmem with rfl | hmem2
        · exact absurd hc hbad
        · exact ⟨c2, hmem2, hbad⟩
      obtain ⟨e, he⟩ :=
        ih ((c.1.zip c.2).foldl (fun acc p => add_sigbit_connection p.2 p.1 acc) pm) hex2
      exact ⟨e, by simp [List.foldlM_cons, processConn, hc, he, Bind.bind, Except.bind]⟩
    · exact ⟨"connection width mismatch",
        by simp [List.foldlM_cons, processConn, hc, Bind.bind, Except.bind]⟩

/-- A cell list containing a cell that fails for every map folds to an error. -/
theorem foldlM_cells_error :
    ∀ (cells : List Cell) (pm : PredMap),
      (∃ c ∈ cells, ∀ pm2, ∃ e, processCell pm2 c = Except.error e) →
      ∃ e, cells.foldlM processCell pm = Except.error e := by
  intro cells
  induction cells with
  | nil => simp
  | cons c cs ih =>
    intro pm hex
    rcases hex with ⟨c2, hmem, hfail⟩
    rcases List.mem_cons.1 hmem with rfl | hmem2
    · obtain ⟨e, he⟩ := hfail pm
      exact ⟨e, by simp [List.foldlM_cons, he, Bind.bind, Except.bind]⟩
    · cases hpc : processCell pm c with
      | error e => exact ⟨e, by simp [List.foldlM_cons, hpc, Bind.bind, Except.bind]⟩
      | ok pm2 =>
        obtain ⟨e, he⟩ := ih pm2 ⟨c2, hmem2, hfail⟩
        exact ⟨e, by simp [List.foldlM_cons, hpc, he, Bind.bind, Except.bind]⟩

/-- A pin list containing a multi-bit pin makes the pin partition fail. -/
theorem collectPins_error_of_multibit :
    ∀ (pins : List (String × List SigBit)), (∃ p ∈ pins, p.2.length ≠ 1) →
      ∃ e, collectPins pins = Except.error e := by
  intro pins
  induction pins with
  | nil => simp
  | cons p ps ih =>
    intro hex
    obtain ⟨pin0, sig0⟩ := p
    by_cases hlen : sig0.length = 1
    · have hex2 : ∃ q ∈ ps, q.2.length ≠ 1 := by
        rcases hex with ⟨q, hmem, hbad⟩
        rcases List.mem_cons.1 hmem with rfl | hmem2
        · exact absurd hlen hbad
        · exact ⟨q, hmem2, hbad⟩
      obtain ⟨e, he⟩ := ih hex2
      by_cases hy : pin0 = "\\Y"
      · exact ⟨e, by simp [collectPins, hlen, hy, he]⟩
      · by_cases habs : pin0 = "\\A" ∨ pin0 = "\\B" ∨ pin0 = "\\S"
        · exact ⟨e, by simp [collectPins, hlen, hy, habs, he]⟩
        · exact ⟨"unexpected pin name", by simp [collectPins, hlen, hy, habs]⟩
    · exact ⟨"cell pin connects to more than one bit", by simp [collectPins, hlen]⟩

/-- An unrecognized (non-metadata) cell type makes cell processing fail. -/
theorem processCell_error_of_badtype (pm : PredMap) (c : Cell)
    (h1 : c.type ≠ "$scopeinfo") (h2 : c.type ∉ GATE_TYPES) :
    processCell pm c = Except.error "unrecognized cell type" := by
  simp [processCell, h1, h2]

/-- A recognized gate with a multi-bit pin makes cell processing fail. -/
theorem processCell_error_of_multibit (pm : PredMap) (c : Cell)
    (hty : c.type ∈ GATE_TYPES) (h : ∃ p ∈ c.conns, p.2.length ≠ 1) :
    ∃ e, processCell pm c = Except.error e := by
  obtain ⟨e, he⟩ := collectPins_error_of_multibit c.conns h
  have hns : ¬ c.type = "$scopeinfo" := by
    intro hcontra
    rw [hcontra] at hty
    simp [GATE_TYPES] at hty
  exact ⟨e, by simp [processCell, hns, hty, he]⟩

/-- A failed graph build surfaces as a fatal result and never as a report. -/
theorem analyze_fatal_of_build_error (m : RtlModule) (fuel : Nat)
    (hseq : moduleIsSequential m = false)
    (h : ∃ e, buildPredMap m = Except.error e) :
    (∃ e, analyzeModule fuel m = some (ModuleResult.fatal e)) ∧
    (∀ j, analyzeModule fuel m ≠ some (ModuleResult.report j)) := by
  obtain ⟨e, he⟩ := h
  refine ⟨⟨e, ?_⟩, ?_⟩
  · simp [analyzeModule, hseq, he]
  · intro j hj
    simp [analyzeModule, hseq, he] at hj

/-- Claim C7: a module with a connection whose destination and source widths
differ never produces a report; whenever its analysis runs (the worker runs
exactly on modules classified combinational) it aborts with a
structural-inconsistency error. -/
theorem C7_width_mismatch_fatal (m : RtlModule) (fuel : Nat)
    (hbad : ∃ conn ∈ m.conns, conn.1.length ≠ conn.2.length) :
    (moduleIsSequential m = false →
      ∃ e, analyzeModule fuel m = some (ModuleResult.fatal e)) ∧
    (∀ j, analyzeModule fuel m ≠ some (ModuleResult.report j)) := by
  have herr : ∃ e, buildPredMap m = Except.error e := by
    obtain ⟨e, he⟩ := foldlM_conns_error m.conns (fun _ => []) hbad
    exact ⟨e, by simp [buildPredMap, he, Bind.bind, Except.bind]⟩
  cases hseq : moduleIsSequential m with
  | true =>
    refine ⟨fun hcontra => absurd hcontra (by simp), fun j hj => ?_⟩
    simp [analyzeModule, hseq] at hj
  | false =>
    obtain ⟨hfatal, hnorep⟩ := analyze_fatal_of_build_error m fuel hseq herr
    exact ⟨fun _ => hfatal, hnorep⟩

/-- Witness for C7: the module with the 1-bit destination and 2-bit source. -/
theorem C7_witness :
    ∃ e, analyzeModule 1 badConnModule = some (ModuleResult.fatal e) :=
  (C7_width_mismatch_fatal badConnModule 1 (by decide)).1 rfl

/-- Claim C8: in a combinational module, a cell type that is neither a
recognized primitive gate nor the `$scopeinfo` metadata marker is fatal, as
is a recognized gate pin bound to more than one bit; `$scopeinfo` cells are
skipped and contribute no edges. -/
theorem C8_unrecognized_and_multibit_fatal (m : RtlModule) (fuel : Nat)
    (hseq : moduleIsSequential m = false) :
    ((∃ c ∈ m.cells, c.type ≠ "$scopeinfo" ∧ c.type ∉ GATE_TYPES) →
      ∃ e, analyzeModule fuel m = some (ModuleResult.fatal e)) ∧
    ((∃ c ∈ m.cells, c.type ∈ GATE_TYPES ∧ ∃ p ∈ c.conns, p.2.length ≠ 1) →
      ∃ e, analyzeModule fuel m = some (ModuleResult.fatal e)) ∧
    (∀ pm c, Cell.type c = "$scopeinfo" → processCell pm c = Except.ok pm) := by
  have build : (∃ c ∈ m.cells, ∀ pm2, ∃ e, processCell pm2 c = Except.error e) →
      ∃ e, analyzeModule fuel m = some (ModuleResult.fatal e) := by
    intro hcell
    apply (analyze_fatal_of_build_error m fuel hseq ?_).1
    cases hconns : m.conns.foldlM processConn (fun _ => []) with
    | error e => exact ⟨e, by simp [buildPredMap, hconns, Bind.bind, Except.bind]⟩
    | ok pm =>
      obtain ⟨e, he⟩ := foldlM_cells_error m.cells pm hcell
      exact ⟨e, by simp [buildPredMap, hconns, he, Bind.bind, Except.bind]⟩
  refine ⟨?_, ?_, ?_⟩
  · intro hex
    apply build
    obtain ⟨c, hmem, h1, h2⟩ := hex
    exact ⟨c, hmem, fun pm2 => ⟨"unrecognized cell type",
      processCell_error_of_badtype pm2 c h1 h2⟩⟩
  · intro hex
    apply build
    obtain ⟨c, hmem, hty, hp⟩ := hex
    exact ⟨c, hmem, fun pm2 => processCell_error_of_multibit pm2 c hty hp⟩
  · intro pm c h
    simp [processCell, h]

/-- Witness for C8: the `$add` cell and the two-bit `\A` pin are fatal, and a
`$scopeinfo` cell leaves the map unchanged. -/
theorem C8_witness :
    (∃ e, analyzeModule 1 badTypeModule = some (ModuleResult.fatal e)) ∧
    (∃ e, analyzeModule 1 badPinModule = some (ModuleResult.fatal e)) ∧
    processCell (fun _ => []) ⟨"$scopeinfo", [("\\A", [aBit, bBit])]⟩ =
      Except.ok (fun _ => []) := by
  refine ⟨?_, ?_, ?_⟩
  · exact (C8_unrecognized_and_multibit_fatal badTypeModule 1 rfl).1 (by decide)
  · exact (C8_unrecognized_and_multibit_fatal badPinModule 1 rfl).2.1 (by decide)
  · exact (C8_unrecognized_and_multibit_fatal ⟨"m", [], [], []⟩ 1 rfl).2.2
      (fun _ => []) ⟨"$scopeinfo", [("\\A", [aBit, bBit])]⟩ rfl

/-- Membership after a set insertion into a predecessor list. -/
theorem mem_insertPred (x src : SigBit) (l : List SigBit) :
    x ∈ insertPred src l ↔ x = src ∨ x ∈ l := by
  unfold insertPred
  by_cases h : src ∈ l
  · simp only [if_pos h]
    constructor
    · exact fun hx => Or.inr hx
    · rintro (rfl | hx)
      · exact h
      · exact hx
  · simp only [if_neg h, List.mem_append, List.mem_singleton]
    tauto

/-- Adding an edge preserves membership in every predecessor list. -/
theorem add_sigbit_connection_mono {x : SigBit} {pm : PredMap} {b : SigBit}
    (s d : SigBit) (h : x ∈ pm b) : x ∈ add_sigbit_connection s d pm b := by
  unfold add_sigbit_connection
  by_cases hb : b = d
  · subst hb
    rw [if_pos rfl, mem_insertPred]
    exact Or.inr h
  · rwa [if_neg hb]

/-- The added edge is present: the source joins the destination's list. -/
theorem add_sigbit_connection_self (s d : SigBit) (pm : PredMap) :
    s ∈ add_sigbit_connection s d pm d := by
  unfold add_sigbit_connection
  rw [if_pos rfl, mem_insertPred]
  exact Or.inl rfl

/-- The inner input loop preserves membership in every predecessor list. -/
theorem foldl_inputs_mono (o : SigBit) :
    ∀ (ins : List SigBit) (pm : PredMap) (x b : SigBit), x ∈ pm b →
      x ∈ (ins.foldl (fun acc2 i => add_sigbit_connection i o acc2) pm) b := by
  intro ins
  induction ins with
  | nil => intro pm x b h; exact h
  | cons i ins ih =>
    intro pm x b h
    exact ih _ x b (add_sigbit_connection_mono i o h)

/-- The inner input loop records every input as predecessor of the output. -/
theorem foldl_inputs_mem (o : SigBit) :
    ∀ (ins : List SigBit) (pm : PredMap) (i : SigBit), i ∈ ins →
      i ∈ (ins.foldl (fun acc2 i2 => add_sigbit_connection i2 o acc2) pm) o := by
  intro ins
  induction ins with
  | nil => intro pm i h; simp at h
  | cons i0 ins ih =>
    intro pm i h
    rcases List.mem_cons.1 h with rfl | h2
    · exact foldl_inputs_mono o ins _ i o (add_sigbit_connection_self i o pm)
    · exact ih _ i h2

/-- The cell edge loops preserve membership in every predecessor list. -/
theorem addCellEdges_mono (ins : List SigBit) :
    ∀ (outs : List SigBit) (pm : PredMap) (x b : SigBit), x ∈ pm b →
      x ∈ addCellEdges ins outs pm b := by
  intro outs
  induction outs with
  | nil => intro pm x b h; exact h
  | cons o outs ih =>
    intro pm x b h
    exact ih _ x b (foldl_inputs_mono o ins pm x b h)

/-- The cell edge loops record every (input, output) pair as an edge. -/
theorem addCellEdges_mem (ins : List SigBit) :
    ∀ (outs : List SigBit) (pm : PredMap) (i o : SigBit), i ∈ ins → o ∈ outs →
      i ∈ addCellEdges ins outs pm o := by
  intro outs
  induction outs with
  | nil => intro pm i o _ h; simp at h
  | cons o0 outs ih =>
    intro pm i o hi ho
    rcases List.mem_cons.1 ho with rfl | ho2
    · exact addCellEdges_mono ins outs _ i o (foldl_inputs_mem o ins pm i hi)
    · exact ih _ i o hi ho2

/-- A successful pin partition collects every 1-bit input pin into the input
list and every 1-bit `\Y` pin into the output list. -/
theorem collectPins_mem :
    ∀ (pins : List (String × List SigBit)) (ins outs : List SigBit),
      collectPins pins = Except.ok (ins, outs) →
      (∀ pin b, (pin, [b]) ∈ pins →
        (pin = "\\A" ∨ pin = "\\B" ∨ pin = "\\S") → b ∈ ins) ∧
      (∀ b, ("\\Y", [b]) ∈ pins → b ∈ outs) := by
  intro pins
  induction pins with
  | nil =>
    intro ins outs _
    constructor
    · intro pin b hmem; simp at hmem
    · intro b hmem; simp at hmem
  | cons p ps ih =>
    intro ins outs h
    obtain ⟨pin0, sig0⟩ := p
    by_cases hlen : sig0.length = 1
    · by_cases hy : pin0 = "\\Y"
      · subst hy
        simp only [collectPins, hlen, if_pos rfl, if_true] at h
        split at h
        · exact absurd h (by simp)
        · rename_i ins2 outs2 hrec
          simp only [Except.ok.injEq, Prod.mk.injEq] at h
          obtain ⟨rfl, rfl⟩ := h
          obtain ⟨hin, hout⟩ := ih ins2 outs2 hrec
          constructor
          · intro pin b hmem habs
            rcases List.mem_cons.1 hmem with heq | hmem2
            · obtain ⟨rfl, -⟩ := Prod.mk.injEq .. ▸ heq
              rcases habs with h1 | h1 | h1 <;> simp at h1
            · exact hin pin b hmem2 habs
          · intro b hmem
            rcases List.mem_cons.1 hmem with heq | hmem2
            · obtain ⟨-, h2⟩ := Prod.mk.injEq .. ▸ heq
              subst h2
              simp
            · simp [hout b hmem2]
      · by_cases habs0 : pin0 = "\\A" ∨ pin0 = "\\B" ∨ pin0 = "\\S"
        · simp only [collectPins, hlen, if_true, hy, if_false, habs0] at h
          split at h
          · exact absurd h (by simp)
          · rename_i ins2 outs2 hrec
            simp only [Except.ok.injEq, Prod.mk.injEq] at h
            obtain ⟨rfl, rfl⟩ := h
            obtain ⟨hin, hout⟩ := ih ins2 outs2 hrec
            constructor
            · intro pin b hmem hpin
              rcases List.mem_cons.1 hmem with heq | hmem2
              · obtain ⟨h1, h2⟩ := Prod.mk.injEq .. ▸ heq
                subst h2
                simp
              · simp [hin pin b hmem2 hpin]
            · intro b hmem
              rcases List.mem_cons.1 hmem with heq | hmem2
              · obtain ⟨h1, -⟩ := Prod.mk.injEq .. ▸ heq
                exact absurd h1.symm hy
              · exact hout b hmem2
        · simp [collectPins, hlen, hy, habs0] at h
    · simp [collectPins, hlen] at h

/-- Claim C5: a recognized gate contributes an edge from every 1-bit input
pin (`\A`, `\B`, and a mux's select `\S`) to every 1-bit output pin `\Y`,
and consequently the dependency set of the gate output contains the
dependency set of every input pin. -/
theorem C5_gate_edges_all_pairs (pm pm2 : PredMap) (c : Cell)
    (hok : processCell pm c = Except.ok pm2) (hty : c.type ∈ GATE_TYPES)
    (pin : String) (i y : SigBit)
    (hpin : (pin, [i]) ∈ c.conns) (hio : pin = "\\A" ∨ pin = "\\B" ∨ pin = "\\S")
    (hy : ("\\Y", [y]) ∈ c.conns) :
    i ∈ pm2 y ∧
    (∀ w off, y = SigBit.wire w off → w.port_input = false →
      ∀ n cy dy, get_dependencies pm2 n [] y = some (cy, dy) →
      ∀ m ci di, get_dependencies pm2 m [] i = some (ci, di) → di ⊆ dy) := by
  have hns : ¬ c.type = "$scopeinfo" := by
    intro hcontra
    rw [hcontra] at hty
    simp [GATE_TYPES] at hty
  simp only [processCell, hns, if_false, hty, if_true] at hok
  have hmem : i ∈ pm2 y := by
    split at hok
    · exact absurd hok (by simp)
    · rename_i ins outs hrec
      simp only [Except.ok.injEq] at hok
      subst hok
      obtain ⟨hin, hout⟩ := collectPins_mem c.conns ins outs hrec
      exact addCellEdges_mem ins outs pm i y (hin pin i hpin hio) (hout y hy)
  refine ⟨hmem, ?_⟩
  intro w off hw hwin n cy dy hdy m ci di hdi
  obtain ⟨-, m0, hm0⟩ :=
    get_dependencies_sound pm2 n [] y cy dy (cacheSound_nil pm2) hdy
  obtain ⟨-, hpi⟩ :=
    get_dependencies_sound pm2 m [] i ci di (cacheSound_nil pm2) hdi
  cases m0 with
  | zero => simp [depsOf] at hm0
  | succ m0 =>
    subst hw
    simp only [depsOf, hwin, Bool.false_eq_true, if_false] at hm0
    obtain ⟨dpi, hdpi, hsub⟩ := depsStep_subset (pm2 (SigBit.wire w off)) dy i hmem hm0
    have : di = dpi := pureVal_unique hpi ⟨m0, hdpi⟩
    subst this
    exact hsub

/-- Witness for C5: the mux cell records its select `\s[0]` and both data
pins as predecessors of `\y[0]`. -/
theorem C5_witness :
    ∃ pm2, processCell (fun _ => []) muxCell = Except.ok pm2 ∧
      sBit ∈ pm2 yBit ∧ bBit ∈ pm2 yBit := by
  refine ⟨_, rfl, ?_, ?_⟩
  · exact (C5_gate_edges_all_pairs (fun _ => []) _ muxCell rfl (by decide)
      "\\S" sBit yBit (by simp [muxCell]) (by simp) (by simp [muxCell])).1
  · exact (C5_gate_edges_all_pairs (fun _ => []) _ muxCell rfl (by decide)
      "\\B" bBit yBit (by simp [muxCell]) (by simp) (by simp [muxCell])).1

/-- Counterexample to claim C1 as stated: the sequential `DFF` module yields
no structured report at all (only the skip notice), and the combinational
report's fields are exactly `module`, `inputs`, `outputs`, `dependencies` —
there is no combinational/sequential flag field. -/
theorem C1_counterexample :
    analyzeModule 1 dffModule = some ModuleResult.skipped ∧
    (¬ ∃ j, analyzeModule 1 dffModule = some (ModuleResult.report j)) ∧
    resultFieldNames (analyzeModule 3 andModule) =
      ["module", "inputs", "outputs", "dependencies"] := by
  refine ⟨rfl, ?_, by decide⟩
  rintro ⟨j, hj⟩
  rw [show analyzeModule 1 dffModule = some ModuleResult.skipped from rfl] at hj
  simp at hj

/-- Claim C1 (amended): a module classified sequential is skipped with no
structured report; for a combinational module whose graph build and
dependency queries succeed, the emitted report carries the module name, the
input-bit descriptor list, the output-bit descriptor list and the dependency
dictionary — and no sequential-flag field. -/
theorem C1_report_structure (m : RtlModule) (fuel : Nat) :
    (moduleIsSequential m = true → analyzeModule fuel m = some ModuleResult.skipped) ∧
    (moduleIsSequential m = false →
      ∀ pm, buildPredMap m = Except.ok pm →
      ∀ dj, get_json_dependencies_dict m pm fuel = some dj →
      ∃ j, analyzeModule fuel m = some (ModuleResult.report j) ∧
        Json.field j "module" = some (Json.str m.name) ∧
        Json.field j "inputs" = some (get_json_inputs_list m) ∧
        Json.field j "outputs" = some (get_json_outputs_list m) ∧
        Json.field j "dependencies" = some dj ∧
        Json.field j "is_sequential" = none) := by
  constructor
  · intro h
    simp [analyzeModule, h]
  · intro hseq pm hpm dj hdj
    refine ⟨Json.obj [("module", Json.str m.name), ("inputs", get_json_inputs_list m),
      ("outputs", get_json_outputs_list m), ("dependencies", dj)],
      ?_, rfl, rfl, rfl, rfl, rfl⟩
    simp [analyzeModule, hseq, hpm, workerReport, hdj]

/-- Witness for the amended C1 at the AND module. -/
theorem C1_witness :
    ∃ j, analyzeModule 3 andModule = some (ModuleResult.report j) ∧
      Json.field j "module" = some (Json.str "\\andmod") ∧
      Json.field j "is_sequential" = none := by
  obtain ⟨j, hj, hmod, -, -, -, hflag⟩ :=
    (C1_report_structure andModule 3).2 rfl _ rfl _ rfl
  exact ⟨j, hj, hmod, hflag⟩

/-- Each dependency list the report emits enumerates a finite set of signal
bits, without duplicates whenever descriptors identify bits. -/
theorem depJsonList_nodup (d : Finset SigBit)
    (hinj : ∀ x ∈ d, ∀ y ∈ d, sigDesc x = sigDesc y → x = y) :
    (depJsonList d).Nodup := by
  unfold depJsonList
  apply List.Nodup.map_on
  · intro x hx y hy h
    exact hinj x ((Finset.mem_sort _).1 hx) y ((Finset.mem_sort _).1 hy) h
  · exact Finset.sort_nodup _ d

/-- Every entry the dictionary loop produces carries a dependency list of the
form `depJsonList d` for some dependency set `d`. -/
theorem depsDictEntries_shape (pm : PredMap) (fuel : Nat) :
    ∀ (bits : List (Wire × Nat)) (cache : Cache) (cr : Cache)
      (l : List (String × Json)),
      depsDictEntries pm fuel cache bits = some (cr, l) →
      ∀ e ∈ l, ∃ d : Finset SigBit, e.2 = Json.arr (depJsonList d) := by
  intro bits
  induction bits with
  | nil =>
    intro cache cr l h e he
    simp only [depsDictEntries, Option.some.injEq, Prod.mk.injEq] at h
    obtain ⟨-, rfl⟩ := h
    simp at he
  | cons wo rest ih =>
    intro cache cr l h e he
    obtain ⟨w, off⟩ := wo
    simp only [depsDictEntries] at h
    split at h
    · exact absurd h (by simp)
    · rename_i cq dq hq
      split at h
      · exact absurd h (by simp)
      · rename_i cs ls hs
        simp only [Option.some.injEq, Prod.mk.injEq] at h
        obtain ⟨rfl, rfl⟩ := h
        rcases List.mem_cons.1 he with rfl | he2
        · exact ⟨dq, rfl⟩
        · exact ih cq cs ls hs e he2

/-- Claim C2 (amended): the emitted `dependencies` keys are in lexicographic
(byte-wise) string order — the `std::map` order, not declaration order —
and every dependency list enumerates a duplicate-free set of signal bits:
its descriptor entries are deduplicated by (name, offset) whenever wire
names identify wires (as RTLIL guarantees within one module). -/
theorem C2_dict_key_order_and_dedup (m : RtlModule) (pm : PredMap) (fuel : Nat)
    (entries : List (String × Json))
    (h : get_json_dependencies_dict m pm fuel = some (Json.obj entries)) :
    List.Sorted (fun a b => keyLe a.1 b.1 = true) entries ∧
    (∀ e ∈ entries, ∃ d : Finset SigBit, e.2 = Json.arr (depJsonList d) ∧
      ((∀ x ∈ d, ∀ y ∈ d, sigDesc x = sigDesc y → x = y) →
        (depJsonList d).Nodup)) := by
  unfold get_json_dependencies_dict at h
  cases hr : depsDictEntries pm fuel [] (outputPortBits m) with
  | none => rw [hr] at h; exact absurd h (by simp)
  | some r =>
    obtain ⟨cr, l⟩ := r
    rw [hr] at h
    simp only [Option.some.injEq, Json.obj.injEq] at h
    subst h
    constructor
    · exact List.sorted_insertionSort _ _
    · intro e he
      have hel : e ∈ l := (List.perm_insertionSort _ l).subset he
      obtain ⟨d, hd⟩ := depsDictEntries_shape pm fuel (outputPortBits m) [] cr l hr e hel
      exact ⟨d, hd, depJsonList_nodup d⟩

/-- Counterexample to claim C2 as stated: with an 11-bit output port `y`,
the emitted key order is lexicographic — `y[10]` precedes `y[1]` — not
ascending bit offset. -/
theorem C2_counterexample :
    resultDepKeys (analyzeModule 1 mod11) =
      ["y[0]", "y[10]", "y[1]", "y[2]", "y[3]", "y[4]", "y[5]", "y[6]", "y[7]",
        "y[8]", "y[9]"] ∧
    resultDepKeys (analyzeModule 1 mod11) ≠
      ["y[0]", "y[1]", "y[2]", "y[3]", "y[4]", "y[5]", "y[6]", "y[7]", "y[8]",
        "y[9]", "y[10]"] := by
  exact ⟨by decide, by decide⟩

/-- Witness for the amended C2 at the 11-bit module. -/
theorem C2_witness :
    ∃ entries, get_json_dependencies_dict mod11 (fun _ => []) 1 =
        some (Json.obj entries) ∧
      List.Sorted (fun a b => keyLe a.1 b.1 = true) entries := by
  refine ⟨_, rfl, ?_⟩
  exact (C2_dict_key_order_and_dedup mod11 (fun _ => []) 1 _ rfl).1
